import Mathlib

/-!
# Verification of the Multi-Channel-Subgraph-Matching core

A shallow embedding of the repository's data model and operations:

* `src/uclasm/matching/lsap.py` — the constrained linear sum assignment
  solver (`constrained_lsap_cost`, `constrained_lsap_costs`).
* `src/uclasm/graph.py` — the multigraph class (`Graph`), its derived
  structural views and `node_cover`.
* the alldiff counter, modelled from the spec (its implementation is not
  part of the provided sources).

Costs are modelled as `WithTop ℤ` (`⊤` plays the role of the float
`inf`; the cost matrices fed to this solver by the repository hold
integer structural-mismatch counts, for which float arithmetic is
exact, so integer arithmetic is faithful).
`scipy.optimize.linear_sum_assignment`
is modelled as brute-force minimisation over complete matchings of
`min(r, c)` pairs; where the code depends on the concrete optimal
assignment returned, the model resolves ties by the lexicographically
first optimum (all counterexamples below are checked to involve only
assignment problems with a *unique* optimum, so they do not depend on
this tie-breaking convention).
-/

/-- Extended costs: integers together with `⊤` for the float `inf`. -/
abbrev Cost : Type := WithTop ℤ

/-! ## Mathematical model of the linear sum assignment problem -/

/-- All complete assignments of `r` rows to pairwise-distinct columns
among `c` columns. -/
def asgmts (r c : ℕ) : Finset (Fin r → Fin c) :=
  Finset.univ.filter Function.Injective

/-- Total cost of an assignment `σ` under cost matrix `C`. -/
def asgCost {r c : ℕ} (C : Fin r → Fin c → Cost) (σ : Fin r → Fin c) : Cost :=
  ∑ i, C i (σ i)

/-- Minimum total cost over all complete assignments of the `r` rows
(`⊤` when no finite-cost assignment exists, in particular when `r > c`).
This is the value found by `scipy.optimize.linear_sum_assignment` in the
orientation with at least as many columns as rows. -/
def lsapMin {r c : ℕ} (C : Fin r → Fin c → Cost) : Cost :=
  (asgmts r c).inf (asgCost C)

/-- Transpose of a cost matrix. -/
def transposeFn {r c : ℕ} (C : Fin r → Fin c → Cost) : Fin c → Fin r → Cost :=
  fun j i => C i j

/-- The optimal value computed by `scipy.optimize.linear_sum_assignment`
for an arbitrary rectangular matrix: it matches `min(r, c)` pairs, i.e.
for `r > c` every *column* receives a distinct row. -/
def scipyLapMin {r c : ℕ} (C : Fin r → Fin c → Cost) : Cost :=
  if r ≤ c then lsapMin C else lsapMin (transposeFn C)

/-- The submatrix of `C` omitting row `i` and column `j`
(`costs[~one_hot(i, n_rows), :][:, ~one_hot(j, n_cols)]` in
`lsap.py`). -/
def deleteRC {r c : ℕ} (C : Fin (r+1) → Fin (c+1) → Cost) (i : Fin (r+1))
    (j : Fin (c+1)) : Fin r → Fin c → Cost :=
  fun a b => C (i.succAbove a) (j.succAbove b)

/-- Model of `constrained_lsap_cost(i, j, costs)` (lsap.py lines 10–43):
solve the assignment problem on the submatrix omitting row `i` and
column `j`; an infeasible submatrix (the `ValueError` caught in the
source) yields `inf`; otherwise the submatrix optimum plus
`costs[i, j]`. -/
def constrained_lsap_cost {r c : ℕ} (i : Fin (r+1)) (j : Fin (c+1))
    (C : Fin (r+1) → Fin (c+1) → Cost) : Cost :=
  let s := scipyLapMin (deleteRC C i j)
  if s = ⊤ then ⊤ else s + C i j

/-- The assignments of all `r` rows to distinct columns that include the
pair `(i, j)`. -/
def constrainedAsgmts {r c : ℕ} (i : Fin r) (j : Fin c) :
    Finset (Fin r → Fin c) :=
  (asgmts r c).filter (fun σ => σ i = j)

/-- The quantity described by the spec for entry `(i, j)`: the minimum
total cost over all assignments of the `r` rows to pairwise-distinct
columns that include the pair `(i, j)`, and `⊤` when no such assignment
exists. -/
def constrainedMinCost {r c : ℕ} (C : Fin r → Fin c → Cost) (i : Fin r)
    (j : Fin c) : Cost :=
  (constrainedAsgmts i j).inf (asgCost C)

/-! ## Operational port of `lsap.py` over list matrices

The algorithm of `constrained_lsap_costs` (lsap.py lines 46–201)
depends on the concrete optimal assignment returned by scipy and on
numpy's first-occurrence `argmin`/`argmax` conventions, so it is ported
operationally over `List (List Cost)` matrices.  Entries of the float
matrices handed to scipy may also be NaN (in which case scipy raises a
`ValueError` other than "cost matrix is infeasible"), so the outer
interface works on matrices of `PyEntry`, which is `Cost` plus NaN. -/

/-- A float entry of a cost matrix: a number, `inf` (both in `Cost`),
or NaN. -/
inductive PyEntry where
  | nan : PyEntry
  | val : Cost → PyEntry
deriving DecidableEq

/-- Errors raised by `scipy.optimize.linear_sum_assignment`:
"cost matrix is infeasible" and "matrix contains invalid numeric
entries" (the representative solver failure other than infeasibility;
shape errors cannot arise in this typed embedding). -/
inductive LapErr where
  | infeasible : LapErr
  | invalidEntries : LapErr
deriving DecidableEq

abbrev QMat : Type := List (List Cost)
abbrev PyMat : Type := List (List PyEntry)

def nRowsL {α : Type} (M : List (List α)) : ℕ := M.length

def nColsL {α : Type} (M : List (List α)) : ℕ := (M.headD []).length

/-- Rectangularity (automatic for numpy 2-d arrays). -/
def RectL {α : Type} (M : List (List α)) : Prop :=
  ∀ row ∈ M, row.length = nColsL M

instance {α : Type} (M : List (List α)) : Decidable (RectL M) :=
  List.decidableBAll _ M

/-- Entry access with an (unreachable in rectangular use) default. -/
def gget {α : Type} (d : α) (M : List (List α)) (i j : ℕ) : α :=
  (M.getD i []).getD j d

def mget (M : QMat) (i j : ℕ) : Cost := gget ⊤ M i j

def mgetP (M : PyMat) (i j : ℕ) : PyEntry := gget (.val ⊤) M i j

def transposeGen {α : Type} (d : α) (M : List (List α)) : List (List α) :=
  (List.range (nColsL M)).map fun j =>
    (List.range (nRowsL M)).map fun i => gget d M i j

def transposeL (M : QMat) : QMat := transposeGen ⊤ M

def transposeP (M : PyMat) : PyMat := transposeGen (.val ⊤) M

/-- Does the matrix contain a NaN entry?  (scipy validates this before
solving and raises "matrix contains invalid numeric entries".) -/
def hasNaN (M : PyMat) : Bool :=
  M.any fun row => row.any fun e => e = PyEntry.nan

/-- The numeric value of a (non-NaN) entry. -/
def stripEntry : PyEntry → Cost
  | .nan => ⊤
  | .val x => x

/-- Forget the (absent) NaNs of a validated matrix. -/
def stripNaN (M : PyMat) : QMat :=
  M.map fun row => row.map stripEntry

/-- All ways of assigning `r` rows, in order, to pairwise-distinct
columns drawn from `avail`, in lexicographic order. -/
def injSeqs : ℕ → List ℕ → List (List ℕ)
  | 0, _ => [[]]
  | r + 1, avail =>
      avail.flatMap fun j => (injSeqs r (avail.erase j)).map fun rest => j :: rest

/-- Cost of assigning row `k` to column `cols[k]` for every `k`. -/
def seqCost (M : QMat) (cols : List ℕ) : Cost :=
  (cols.enum.map fun p => mget M p.1 p.2).sum

/-- Minimum assignment cost in the given orientation (all rows must be
assigned); `⊤` when no finite-cost complete assignment exists. -/
def lapMinOriented (M : QMat) : Cost :=
  ((injSeqs (nRowsL M) (List.range (nColsL M))).map (seqCost M)).foldl min ⊤

/-- Optimal value of `scipy.optimize.linear_sum_assignment`: matches
`min(r, c)` pairs, transposing when rows outnumber columns; `⊤` encodes
the "cost matrix is infeasible" `ValueError`. -/
def lapMinL (M : QMat) : Cost :=
  if nRowsL M ≤ nColsL M then lapMinOriented M
  else lapMinOriented (transposeL M)

/-- The optimal assignment itself (for the rows-≤-columns orientation):
the lexicographically first column sequence among the finite-cost
optima, `none` when the problem is infeasible.  scipy does not specify
which optimum it returns; all concrete evaluations below involve only
problems whose optimum is unique, where every correct solver agrees
with this model. -/
def lapPick (M : QMat) (acc : Option (Cost × List ℕ)) (s : List ℕ) :
    Option (Cost × List ℕ) :=
  let cst := seqCost M s
  match acc with
  | none => some (cst, s)
  | some (b, bs) => if cst < b then some (cst, s) else some (b, bs)

def lapLex (M : QMat) : Option (List ℕ) :=
  match (injSeqs (nRowsL M) (List.range (nColsL M))).foldl (lapPick M) none with
  | none => none
  | some (b, bs) => if b = ⊤ then none else some bs

/-- The submatrix omitting row `i` and column `j`
(`costs[~one_hot(i, n_rows), :][:, ~one_hot(j, n_cols)]`). -/
def deleteRCL (M : PyMat) (i j : ℕ) : PyMat :=
  (M.eraseIdx i).map fun row => row.eraseIdx j

def deleteRCLQ (M : QMat) (i j : ℕ) : QMat :=
  (M.eraseIdx i).map fun row => row.eraseIdx j

/-- Value computed by `constrained_lsap_cost(i, j, costs)` on a NaN-free
matrix: submatrix optimum plus `costs[i, j]`, `inf` when the submatrix
problem is infeasible (the caught `ValueError`). -/
def constrained_lsap_cost_val (i j : ℕ) (M : QMat) : Cost :=
  let m := lapMinL (deleteRCLQ M i j)
  if m = ⊤ then ⊤ else m + mget M i j

/-- Float addition on entries (`x + nan = nan`). -/
def addEntry : PyEntry → PyEntry → PyEntry
  | .val a, .val b => .val (a + b)
  | _, _ => .nan

/-- Port of `constrained_lsap_cost` (lsap.py lines 10–43) with its
exception behaviour: a NaN in the submatrix makes scipy raise the
"invalid numeric entries" `ValueError`, which is re-raised; the
"infeasible" `ValueError` is caught and turned into `inf`. -/
def constrained_lsap_costE (i j : ℕ) (M : PyMat) : Except LapErr PyEntry :=
  let sub := deleteRCL M i j
  if hasNaN sub then .error .invalidEntries
  else
    let m := lapMinL (stripNaN sub)
    if m = ⊤ then .ok (.val ⊤)
    else .ok (addEntry (.val m) (mgetP M i j))

/-- First index of the minimum of a row (numpy `argmin`). -/
def argminIdx (row : List Cost) : ℕ :=
  (row.enum.foldl
    (fun best p => if p.2 < best.2 then p else best) ((0 : ℕ), (⊤ : Cost))).1

/-- Set entry `(i, cols[i])` of every row `i` to `⊤`
(`_costs[row_idxs, best_col_idxs] = np.inf`). -/
def maskCols (M : QMat) (cols : List ℕ) : QMat :=
  M.enum.map fun p =>
    p.2.enum.map fun q => if q.1 = cols.getD p.1 0 then ⊤ else q.2

/-- `total_costs[i, j] = v`. -/
def setEntry (T : QMat) (i j : ℕ) (v : Cost) : QMat :=
  T.set i ((T.getD i []).set j v)

/-- `costs[row_idxs, col_idxs].sum()` for a full column vector
`col_idxs` (entries are valid column indices at every use site). -/
def sumAssigned (M : QMat) (colIdxs : List ℤ) : Cost :=
  (colIdxs.enum.map fun p => mget M p.1 p.2.toNat).sum

/-- `np.setdiff1d(lsap_col_idxs, col_idxs)[0]`: the smallest element of
`a` not occurring in `b` (exactly one exists at every use site). -/
def setdiffMin (a : List ℕ) (b : List ℤ) : ℕ :=
  match a.filter (fun x => !(b.contains (Int.ofNat x))) with
  | [] => 0
  | x :: xs => xs.foldl min x

/-- `col_idxs[sub_ind] = lsap_col_idxs[sub_col_ind]`: write `vals[k]`
at position `rows[k]`. -/
def assignSub (cols : List ℤ) (rows : List ℕ) (vals : List ℕ) : List ℤ :=
  (rows.zip vals).foldl (fun acc p => acc.set p.1 (p.2 : ℤ)) cols

/-- Restrict a matrix to the given columns (`costs[:, potential_cols]`). -/
def selectCols (M : QMat) (cols : List ℕ) : QMat :=
  M.map fun row => cols.map fun j => row.getD j ⊤

/-- Port of the body of `constrained_lsap_costs` (lsap.py lines 72–201)
for a validated, NaN-free matrix with at least as many columns as rows.
The inner `lap` calls are not wrapped in `try`, so an infeasible
sub-problem there raises (propagates as `.error .infeasible`). -/
def constrained_lsap_costs_core (M : QMat) : Except LapErr QMat :=
  let r := nRowsL M
  let c := nColsL M
  match lapLex M with
  | none => .ok (List.replicate r (List.replicate c ⊤))
  | some lsapCols =>
    let lsapCosts := (List.range r).map fun i => mget M i (lsapCols.getD i 0)
    let lsapTotal := lsapCosts.sum
    let bestCols := (List.range r).map fun i => argminIdx (M.getD i [])
    let costs1 := maskCols M bestCols
    let secondCols := (List.range r).map fun i => argminIdx (costs1.getD i [])
    let costs2 := maskCols costs1 secondCols
    let thirdCols := (List.range r).map fun i => argminIdx (costs2.getD i [])
    let potentialCols :=
      if r < c then
        let unused := (List.range c).filter fun j => ¬ lsapCols.contains j
        let firstUnused := (List.range r).map fun i =>
          argminIdx (unused.map fun u => mget M i u)
        (List.range c).filter fun j =>
          lsapCols.contains j || (firstUnused.map fun f => unused.getD f 0).contains j
      else List.range c
    let T0 : QMat := (List.range r).map fun i =>
      (List.range c).map fun j =>
        (lsapTotal - (lsapCosts.getD i 0 : Cost)) + mget M i j
    let Tloop : Except LapErr QMat := (List.range r).foldlM
      (fun T i => do
        let freedJ := lsapCols.getD i 0
        let colIdxs0 : List ℤ := (lsapCols.map fun x => (x : ℤ)).set i (-1)
        let cond := (List.range r).any fun k =>
          mget M k freedJ < lsapCosts.getD k ⊤
        let step1 : Except LapErr (List ℤ × QMat) :=
          if cond then
            let subRows := (List.range r).filter fun k => k ≠ i
            let subM : QMat := subRows.map fun k =>
              lsapCols.map fun cj => mget M k cj
            match lapLex subM with
            | none => .error .infeasible
            | some subCols =>
              let subTotal := (subCols.enum.map fun p => mget subM p.1 p.2).sum
              let colIdxs' := assignSub colIdxs0 subRows
                (subCols.map fun b => lsapCols.getD b 0)
              let Trow := (List.range c).map fun j => mget M i j + subTotal
              .ok (colIdxs', T.set i Trow)
          else .ok (colIdxs0, T)
        match step1 with
        | .error e => .error e
        | .ok (colIdxs1, T1) =>
          let missing := setdiffMin lsapCols colIdxs1
          let colIdxs2 := colIdxs1.set i (missing : ℤ)
          let T2 := setEntry T1 i missing (sumAssigned M colIdxs2)
          let colIdxs3 := colIdxs2.set i (-1)
          let T3 := (List.range r).foldl
            (fun Tacc otherI =>
              if otherI = i then Tacc
              else
                let stolen := (colIdxs3.getD otherI (-1)).toNat
                let cw := (colIdxs3.set i (stolen : ℤ)).set otherI (-1)
                let bestJ := bestCols.getD otherI 0
                let secondJ := secondCols.getD otherI 0
                let thirdJ := thirdCols.getD otherI 0
                if bestJ ≠ stolen ∧ ¬ cw.contains (bestJ : ℤ) ∧
                    (mget M otherI bestJ ≠ mget M otherI secondJ ∨
                      ¬ cw.contains (secondJ : ℤ)) then
                  setEntry Tacc i stolen
                    (sumAssigned M (cw.set otherI (bestJ : ℤ)))
                else if ¬ cw.contains (secondJ : ℤ) ∧
                    (mget M otherI secondJ ≠ mget M otherI thirdJ ∨
                      ¬ cw.contains (thirdJ : ℤ)) then
                  setEntry Tacc i stolen
                    (sumAssigned M (cw.set otherI (secondJ : ℤ)))
                else
                  let subM := selectCols M potentialCols
                  let subJ := potentialCols.indexOf stolen
                  setEntry Tacc i stolen (constrained_lsap_cost_val i subJ subM))
            T2
          .ok T3)
      T0
    match Tloop with
    | .error e => .error e
    | .ok T =>
      .ok ((List.range r).foldl
        (fun Tacc k => setEntry Tacc k (lsapCols.getD k 0) lsapTotal) T)

/-- NaN validation happens at the first scipy call, before anything
else in the body. -/
def constrained_lsap_costs_checked (M : PyMat) : Except LapErr QMat :=
  if hasNaN M then .error .invalidEntries
  else constrained_lsap_costs_core (stripNaN M)

/-- Port of `constrained_lsap_costs(costs)` (lsap.py lines 46–201):
normalise to at least as many columns as rows by transposing (and
transposing the result back). -/
def constrained_lsap_costsE (M : PyMat) : Except LapErr QMat :=
  if nColsL M < nRowsL M then
    match constrained_lsap_costs_checked (transposeP M) with
    | .error e => .error e
    | .ok T => .ok (transposeL T)
  else constrained_lsap_costs_checked M

/-- The reference implementation from the docstring of
`constrained_lsap_costs` (lsap.py lines 54–58): solve each constrained
problem independently with `constrained_lsap_cost`. -/
def constrained_lsap_costs_naive (M : QMat) : QMat :=
  (List.range (nRowsL M)).map fun i =>
    (List.range (nColsL M)).map fun j => constrained_lsap_cost_val i j M

/-- Unwrap an `Except` result (for stating concrete evaluations). -/
def exceptGet (e : Except LapErr QMat) : QMat :=
  match e with
  | .ok v => v
  | .error _ => []

/-- Wrap a NaN-free matrix as a float matrix. -/
def toPyMat (M : QMat) : PyMat := M.map fun row => row.map .val

/-- The cost matrix on which the fast algorithm is wrong:
rows are template-side, columns world-side mismatch counts. -/
def lsapBugM : QMat :=
  [[0, 0, 3, 3], [0, 2, 2, 3], [3, 1, 3, 2]]

/-! ## The multigraph `Graph` (graph.py)

A graph with `n` nodes and `nch` channels stores one `n × n` adjacency
matrix of edge multiplicities per channel (`self.adjs`). -/

structure Graph (n nch : ℕ) where
  adjs : Fin nch → Fin n → Fin n → ℕ

/-- `composite_adj`: total number of edges of any type from `i` to `j`
(graph.py lines 131–139). -/
def composite_adj {n nch : ℕ} (g : Graph n nch) (i j : Fin n) : ℕ :=
  ∑ c, g.adjs c i j

/-- `sym_composite_adj` (graph.py lines 141–149). -/
def sym_composite_adj {n nch : ℕ} (g : Graph n nch) (i j : Fin n) : ℕ :=
  composite_adj g i j + composite_adj g j i

/-- `is_nbr`: boolean neighbour matrix, true when the two nodes are
connected by an edge in either direction in any channel
(graph.py lines 151–160). -/
def is_nbr {n nch : ℕ} (g : Graph n nch) (i j : Fin n) : Bool :=
  0 < sym_composite_adj g i j

/-- `nbr_idx_pairs = np.argwhere(sparse.tril(self.is_nbr))`
(graph.py lines 162–170): positions of the lower triangle (diagonal
included) of `is_nbr`, in row-major order. -/
def nbr_idx_pairs {n nch : ℕ} (g : Graph n nch) : List (Fin n × Fin n) :=
  (List.finRange n).flatMap fun i =>
    ((List.finRange n).filter fun j => decide (j ≤ i) && is_nbr g i j).map
      fun j => (i, j)

/-- `self_edges[v, c] = adjs[c].diagonal()[v]` (graph.py lines 172–180). -/
def self_edges {n nch : ℕ} (g : Graph n nch) (v : Fin n) (c : Fin nch) : ℕ :=
  g.adjs c v v

/-- `in_degrees`: column sums of each adjacency matrix minus the
self-edge counts (graph.py lines 182–192). -/
def in_degrees {n nch : ℕ} (g : Graph n nch) (v : Fin n) (c : Fin nch) : ℕ :=
  (∑ u, g.adjs c u v) - self_edges g v c

/-- `out_degrees`: row sums of each adjacency matrix minus the
self-edge counts (graph.py lines 194–204). -/
def out_degrees {n nch : ℕ} (g : Graph n nch) (v : Fin n) (c : Fin nch) : ℕ :=
  (∑ u, g.adjs c v u) - self_edges g v c

/-- First index of the maximum of a list of counts (numpy `argmax`). -/
def argmaxIdx (l : List ℕ) : ℕ :=
  (l.enum.foldl (fun best p => if p.2 > best.2 then p else best) (0, 0)).1

/-- One pass of the `node_cover` loop (graph.py lines 309–340), with
`uncov` the list of still-uncovered node indices in increasing order
(the positions of the `True` entries of the boolean mask `uncov`).
While the `is_nbr` submatrix on the uncovered nodes has a nonzero
entry, compute its column sums (`nbr_counts`), take `imax = argmax`,
append `imax` to the cover — note that `imax` is an index into the
*compressed* submatrix, not a node index of the graph — and mark the
`imax`-th uncovered node covered (`uncov[uncov] = ~one_hot(imax, …)`).
Each pass covers one node, so `n` iterations of fuel are exact. -/
def nodeCoverAux {n nch : ℕ} (g : Graph n nch) :
    ℕ → List (Fin n) → List ℕ
  | 0, _ => []
  | fuel + 1, uncov =>
    if uncov.any (fun p => uncov.any fun q => is_nbr g p q) then
      let counts := uncov.map fun v => (uncov.filter fun p => is_nbr g p v).length
      let imax := argmaxIdx counts
      imax :: nodeCoverAux g fuel (uncov.eraseIdx imax)
    else []

/-- `node_cover` (graph.py lines 309–340). -/
def node_cover {n nch : ℕ} (g : Graph n nch) : List ℕ :=
  nodeCoverAux g n (List.finRange n)

/-- The 4-node single-channel graph with edges `0 → 1` and `2 → 3`. -/
def g4 : Graph 4 1 where
  adjs := fun _ i j =>
    if (i = 0 ∧ j = 1) ∨ (i = 2 ∧ j = 3) then 1 else 0

/-! ## Aliasing and mutation of the subgraph operations (graph.py)

Python sparse matrices are mutable heap objects; `loopless_subgraph`
copies them and then mutates the copies in place (`adj[nonzero,
nonzero] = 0`), `node_subgraph` allocates sliced copies, and
`channel_subgraph` shares the originals without mutating.  To make the
frame property ("the original graph is unchanged") meaningful, the
matrices live in an explicit heap and graphs hold references into it;
the channel and node lists are plain values (`Graph.__init__` copies
the channel list with `list(channels)` and only ever reads the
nodelist). -/

abbrev HeapMat : Type := List (List ℕ)
abbrev Heap : Type := List HeapMat

structure HGraph where
  adjRefs : List ℕ
  channels : List String
  nodes : List String

def heapGet (h : Heap) (r : ℕ) : HeapMat := h.getD r []

/-- Allocate fresh matrices at the end of the heap, returning their
references. -/
def allocate (h : Heap) (ms : List HeapMat) : Heap × List ℕ :=
  (h ++ ms, (List.range ms.length).map fun k => h.length + k)

/-- `nonzero, = adj.diagonal().nonzero(); adj[nonzero, nonzero] = 0`:
zero the nonzero diagonal entries of a matrix. -/
def zeroDiag (m : HeapMat) : HeapMat :=
  m.enum.map fun p =>
    p.2.enum.map fun q => if q.1 = p.1 ∧ ¬ q.2 = 0 then 0 else q.2

/-- `loopless_subgraph` (graph.py lines 226–249): copy every adjacency
matrix, then mutate the copies in place, and build a new graph from the
copies. -/
def loopless_subgraph (h : Heap) (g : HGraph) : HGraph × Heap :=
  let copies := g.adjRefs.map (heapGet h)
  let alloc := allocate h copies
  let h2 := alloc.2.foldl (fun acc r => acc.set r (zeroDiag (heapGet acc r)))
    alloc.1
  ({ adjRefs := alloc.2, channels := g.channels, nodes := g.nodes }, h2)

/-- `adj[node_idxs, :][:, node_idxs]`: numpy/scipy slicing allocates a
new matrix. -/
def sliceMat (m : HeapMat) (idxs : List ℕ) : HeapMat :=
  idxs.map fun i => idxs.map fun j => (m.getD i []).getD j 0

/-- `node_subgraph` (graph.py lines 251–281). -/
def node_subgraph (h : Heap) (g : HGraph) (nodeIdxs : List ℕ) :
    HGraph × Heap :=
  let mats := g.adjRefs.map fun r => sliceMat (heapGet h r) nodeIdxs
  let alloc := allocate h mats
  ({ adjRefs := alloc.2, channels := g.channels,
     nodes := nodeIdxs.map fun i => g.nodes.getD i "" }, alloc.1)

/-- `channel_subgraph` (graph.py lines 283–307): reuses the adjacency
matrices of the selected channels (aliasing, no copy, no mutation). -/
def channel_subgraph (h : Heap) (g : HGraph) (chs : List String) :
    HGraph × Heap :=
  ({ adjRefs := chs.map fun ch => g.adjRefs.getD (g.channels.indexOf ch) 0,
     channels := chs, nodes := g.nodes }, h)

/-! ## `Graph.__init__` and its legacy argument order (claim C3) -/

/-- A Python value passed in the `adjs`/`nodelist` positions: an
adjacency matrix or a node name. -/
inductive PyVal where
  | mat : HeapMat → PyVal
  | name : String → PyVal
deriving DecidableEq

/-- Failures of `Graph.__init__`: the explicit
`Exception("Unable to match adjs to channels")`, the `TypeError` from
`len(None)` after the legacy swap when no nodelist was supplied, and
the errors from `adjs[0].shape` when the adjacency list is empty or
holds non-matrices. -/
inductive InitErr where
  | unableToMatch : InitErr
  | typeErrorNone : InitErr
  | badAdjs : InitErr
deriving DecidableEq

structure GraphObj where
  adjs : List PyVal
  channels : List String
deriving DecidableEq

/-- The tail of `Graph.__init__` after the compatibility checks:
`n_nodes = adjs[0].shape[0]` fails on an empty or non-matrix adjacency
list; otherwise channel names default to `"channel i"`. -/
def finishInit (adjs2 : List PyVal) (channels : Option (List String)) :
    Except InitErr GraphObj :=
  match adjs2.head? with
  | none => .error .badAdjs
  | some (PyVal.name _) => .error .badAdjs
  | some (PyVal.mat _) =>
    let chs := match channels with
      | some chs => chs
      | none => (List.range adjs2.length).map fun k => "channel " ++ toString k
    .ok { adjs := adjs2, channels := chs }

/-- `Graph.__init__(adjs, channels, nodelist, …)` (graph.py lines
68–106).  When channels are given and `len(adjs) != len(channels)`, the
legacy argument order is assumed: the nodelist becomes the adjacency
list (and the old `adjs` the nodelist); if the lengths still disagree,
`Exception("Unable to match adjs to channels")` is raised — except that
a missing nodelist makes the second length check evaluate `len(None)`,
a `TypeError`. -/
def graphInit (adjs : List PyVal) (channels : Option (List String))
    (nodelist : Option (List PyVal)) : Except InitErr GraphObj :=
  match channels with
  | some chs =>
    if adjs.length ≠ chs.length then
      match nodelist with
      | none => .error .typeErrorNone
      | some nl =>
        if nl.length ≠ chs.length then .error .unableToMatch
        else finishInit nl (some chs)
    else finishInit adjs (some chs)
  | none => finishInit adjs none

/-! ## The alldiff counter (claim C7)

Modelled from the spec: the implementation of `count_alldiffs` is not
under `src/` (only its tests are), so the definitions below follow
§4.6 of the spec: decompose the items into connected components of the
"shares a candidate value" relation and multiply the component counts;
within a component, branch on the item with the fewest remaining
candidates, try each of its values, remove that value from every other
item, and recurse; an item with an empty candidate set contributes
zero, a component with zero items contributes one. -/

/-- First index of the item with the fewest candidates. -/
def argminLenIdx (items : List (List ℤ)) : ℕ :=
  (items.enum.foldl
    (fun best p => if p.2.length < best.2 then (p.1, p.2.length) else best)
    (0, (items.headD []).length)).1

/-- Modelled from the spec: the branching recursion of §4.6.  Each
recursive call removes one item, so `items.length` fuel is exact. -/
def branchCount : ℕ → List (List ℤ) → ℕ
  | 0, items => if items.isEmpty then 1 else 0
  | fuel + 1, items =>
    if items.isEmpty then 1
    else if items.any (fun cs => cs.isEmpty) then 0
    else
      let idx := argminLenIdx items
      let cands := items.getD idx []
      let rest := items.eraseIdx idx
      (cands.map fun v =>
        branchCount fuel (rest.map fun cs => cs.filter fun x => x ≠ v)).sum

/-- Do two candidate lists share a value? -/
def shareValue (a b : List ℤ) : Bool := a.any fun v => b.contains v

/-- Merge a new item into the components computed so far: all
components it overlaps with collapse into one. -/
def insertComp (comps : List (List (List ℤ))) (cand : List ℤ) :
    List (List (List ℤ)) :=
  let split := comps.partition fun comp => comp.any fun cs => shareValue cs cand
  (cand :: split.1.flatten) :: split.2

/-- Modelled from the spec: connected components of the
"item shares a candidate value with item" relation. -/
def components (cands : List (List ℤ)) : List (List (List ℤ)) :=
  cands.foldl insertComp []

/-- Modelled from the spec: `count_alldiffs(item_to_candidates)` —
the product over connected components of the branching count. -/
def count_alldiffs (d : List (String × List ℤ)) : ℕ :=
  ((components (d.map Prod.snd)).map fun comp =>
    branchCount comp.length comp).prod

/-! ## Theorems about `constrained_lsap_cost` (claim C4) -/

theorem asgmts_nonempty {r c : ℕ} (h : r ≤ c) : (asgmts r c).Nonempty := by
  refine ⟨Fin.castLE h, ?_⟩
  simp only [asgmts, Finset.mem_filter, Finset.mem_univ, true_and]
  exact Fin.castLE_injective h

/-- Splitting the cost of an assignment that sends `i` to `j` into the
`(i, j)` term and the cost of the residual assignment. -/
theorem asgCost_split {r c : ℕ} (C : Fin (r+1) → Fin (c+1) → Cost)
    (i : Fin (r+1)) (j : Fin (c+1)) (σ : Fin (r+1) → Fin (c+1))
    (τ : Fin r → Fin c) (hij : σ i = j)
    (hτ : ∀ a, σ (i.succAbove a) = j.succAbove (τ a)) :
    asgCost C σ = C i j + asgCost (deleteRC C i j) τ := by
  unfold asgCost deleteRC
  rw [Fin.sum_univ_succAbove (fun x => C x (σ x)) i, hij]
  congr 1
  refine Finset.sum_congr rfl fun a _ => ?_
  rw [hτ a]

/-- The minimum assignment cost forced through `(i, j)` equals the
optimum of the submatrix omitting row `i` and column `j`, plus
`C i j` — provided there are at least as many columns as rows. -/
theorem constrainedMinCost_eq {r c : ℕ} (h : r ≤ c)
    (C : Fin (r+1) → Fin (c+1) → Cost) (i : Fin (r+1)) (j : Fin (c+1)) :
    constrainedMinCost C i j = lsapMin (deleteRC C i j) + C i j := by
  apply le_antisymm
  · -- exhibit an assignment through (i, j) achieving the right-hand side
    obtain ⟨τ, hτmem, hτeq⟩ :=
      Finset.exists_mem_eq_inf (asgmts r c) (asgmts_nonempty h)
        (asgCost (deleteRC C i j))
    have hτinj : Function.Injective τ := by
      simpa [asgmts, Finset.mem_filter] using hτmem
    set σ : Fin (r+1) → Fin (c+1) :=
      i.insertNth j (fun a => j.succAbove (τ a)) with hσ
    have hσi : σ i = j := by
      rw [hσ]
      exact @Fin.insertNth_apply_same r (fun _ => Fin (c+1)) i j
        (fun a => j.succAbove (τ a))
    have hσa : ∀ a, σ (i.succAbove a) = j.succAbove (τ a) := by
      intro a
      rw [hσ]
      exact @Fin.insertNth_apply_succAbove r (fun _ => Fin (c+1)) i j
        (fun b => j.succAbove (τ b)) a
    have hσinj : Function.Injective σ := by
      intro x y hxy
      rcases eq_or_ne x i with hx | hx
      · rcases eq_or_ne y i with hy | hy
        · rw [hx, hy]
        · obtain ⟨b, hb⟩ := Fin.exists_succAbove_eq hy
          rw [hx, hσi, ← hb, hσa] at hxy
          exact absurd hxy.symm (Fin.succAbove_ne j (τ b))
      · obtain ⟨a, ha⟩ := Fin.exists_succAbove_eq hx
        rcases eq_or_ne y i with hy | hy
        · rw [hy, hσi, ← ha, hσa] at hxy
          exact absurd hxy (Fin.succAbove_ne j (τ a))
        · obtain ⟨b, hb⟩ := Fin.exists_succAbove_eq hy
          rw [← ha, ← hb, hσa, hσa] at hxy
          have hab : τ a = τ b := Fin.succAbove_right_injective hxy
          rw [← ha, ← hb, hτinj hab]
    have hmem : σ ∈ constrainedAsgmts i j := by
      simp only [constrainedAsgmts, asgmts, Finset.mem_filter,
        Finset.mem_univ, true_and]
      exact ⟨hσinj, hσi⟩
    calc constrainedMinCost C i j ≤ asgCost C σ := Finset.inf_le hmem
      _ = C i j + asgCost (deleteRC C i j) τ := asgCost_split C i j σ τ hσi hσa
      _ = lsapMin (deleteRC C i j) + C i j := by rw [← hτeq, add_comm]; rfl
  · -- every assignment through (i, j) costs at least the right-hand side
    apply Finset.le_inf
    intro σ hσ
    have hσinj : Function.Injective σ := by
      have := hσ
      simp only [constrainedAsgmts, asgmts, Finset.mem_filter,
        Finset.mem_univ, true_and] at this
      exact this.1
    have hσi : σ i = j := by
      have := hσ
      simp only [constrainedAsgmts, asgmts, Finset.mem_filter,
        Finset.mem_univ, true_and] at this
      exact this.2
    have hne : ∀ a : Fin r, σ (i.succAbove a) ≠ j := by
      intro a hcontra
      have : σ (i.succAbove a) = σ i := by rw [hσi, hcontra]
      exact Fin.succAbove_ne i a (hσinj this)
    have hex : ∀ a : Fin r, ∃ b, j.succAbove b = σ (i.succAbove a) := fun a =>
      Fin.exists_succAbove_eq (hne a)
    set τ : Fin r → Fin c := fun a => Classical.choose (hex a) with hτdef
    have hτ : ∀ a, σ (i.succAbove a) = j.succAbove (τ a) := fun a =>
      (Classical.choose_spec (hex a)).symm
    have hτinj : Function.Injective τ := by
      intro a b hab
      have : σ (i.succAbove a) = σ (i.succAbove b) := by
        rw [hτ a, hτ b, hab]
      exact Fin.succAbove_right_injective (hσinj this)
    have hτmem : τ ∈ asgmts r c := by
      simp only [asgmts, Finset.mem_filter, Finset.mem_univ, true_and]
      exact hτinj
    calc lsapMin (deleteRC C i j) + C i j
        ≤ asgCost (deleteRC C i j) τ + C i j :=
          add_le_add_right (Finset.inf_le hτmem) _
      _ = asgCost C σ := by rw [add_comm, asgCost_split C i j σ τ hσi hτ]

/-- C4 (amended): for a cost matrix with at least as many columns as
rows, `constrained_lsap_cost i j C` equals the minimum total cost over
all assignments of the rows to pairwise-distinct columns that include
the pair `(i, j)`, and equals `⊤` (`+inf`) when no such assignment
exists. -/
theorem constrained_lsap_cost_eq_constrainedMin {r c : ℕ} (h : r ≤ c)
    (i : Fin (r+1)) (j : Fin (c+1)) (C : Fin (r+1) → Fin (c+1) → Cost) :
    constrained_lsap_cost i j C = constrainedMinCost C i j := by
  unfold constrained_lsap_cost
  have hsub : scipyLapMin (deleteRC C i j) = lsapMin (deleteRC C i j) := by
    unfold scipyLapMin
    exact if_pos h
  rw [hsub, constrainedMinCost_eq h C i j]
  rcases eq_or_ne (lsapMin (deleteRC C i j)) ⊤ with htop | htop
  · rw [htop]
    simp
  · rw [if_neg htop]

/-- Witness for the amended C4 theorem at a concrete input: the 2 × 2
matrix `[[1, 2], [3, 4]]`, constraint `(0, 1)`; the constrained optimum
is `2 + 3 = 5`. -/
theorem constrained_lsap_cost_eq_constrainedMin_witness :
    (1 : ℕ) ≤ 1 ∧
      constrained_lsap_cost (r := 1) (c := 1) 0 1
          (fun i j : Fin 2 => if i = 0 then (if j = 0 then 1 else 2)
            else (if j = 0 then 3 else 4)) =
        constrainedMinCost
          (fun i j : Fin 2 => if i = 0 then (if j = 0 then 1 else 2)
            else (if j = 0 then 3 else 4)) 0 1 ∧
      constrained_lsap_cost (r := 1) (c := 1) 0 1
          (fun i j : Fin 2 => if i = 0 then (if j = 0 then 1 else 2)
            else (if j = 0 then 3 else 4)) = ((5 : ℤ) : Cost) :=
  ⟨le_refl 1,
    constrained_lsap_cost_eq_constrainedMin (le_refl 1) 0 1 _,
    by decide⟩

/-- C4 (counterexample to the original claim): for the 2 × 1 all-zero
cost matrix and constraint `(0, 0)` there is *no* assignment of both
rows to pairwise-distinct columns, so the spec's quantity is `⊤`, yet
`constrained_lsap_cost` returns `0`: the scipy solver silently solves a
*partial* assignment problem when rows outnumber columns. -/
theorem constrained_lsap_cost_partial_counterexample :
    constrained_lsap_cost (r := 1) (c := 0) 0 0 (fun _ _ => (0 : Cost)) =
        (0 : Cost) ∧
      constrainedMinCost (fun _ _ => (0 : Cost)) (0 : Fin 2) (0 : Fin 1) = ⊤ := by
  constructor
  · decide
  · decide

/-! ## The fast constrained-cost algorithm disagrees with the naive one
(claim C1) -/

/-- C1: on the 3 × 4 integer cost matrix `lsapBugM`, the matrix
returned by `constrained_lsap_costs` differs from the one obtained by
solving each constrained problem independently with
`constrained_lsap_cost`, contradicting the docstring of
`constrained_lsap_costs` ("The output of this function is equivalent
to … [the naive loop]").  The fast algorithm reports `4` at entry
`(1, 2)` while the true constrained optimum is `3` (assignment
row 0 → column 0, row 1 → column 2, row 2 → column 1, cost
`0 + 2 + 1`).  Every `linear_sum_assignment` call performed on this
input has a unique optimum, so the result does not depend on scipy's
tie-breaking. -/
theorem constrained_lsap_costs_ne_naive :
    (constrained_lsap_costsE (toPyMat lsapBugM)).toOption =
        some [[3, 2, 4, 4], [2, 4, 4, 4], [5, 3, 3, 2]] ∧
      constrained_lsap_costs_naive lsapBugM =
        [[3, 2, 4, 4], [2, 4, 3, 4], [5, 3, 3, 2]] ∧
      mget (exceptGet (constrained_lsap_costsE (toPyMat lsapBugM))) 1 2 ≠
        constrained_lsap_cost_val 1 2 lsapBugM := by
  refine ⟨by decide, by decide, by decide⟩

/-! ## Error handling of the solver (claim C5) -/

theorem nRowsL_stripNaN (M : PyMat) : nRowsL (stripNaN M) = nRowsL M := by
  simp [nRowsL, stripNaN]

theorem nColsL_stripNaN (M : PyMat) : nColsL (stripNaN M) = nColsL M := by
  cases M with
  | nil => rfl
  | cons row rest => simp [nColsL, stripNaN]

theorem getD_map_range {β : Type} (n : ℕ) (g : ℕ → β) (j : ℕ) (d : β)
    (h : j < n) : ((List.range n).map g).getD j d = g j := by
  rw [List.getD_eq_getElem _ _ (by simpa using h)]
  simp

theorem mget_stripNaN (M : PyMat) (i j : ℕ) :
    mget (stripNaN M) i j = stripEntry (mgetP M i j) := by
  unfold mget mgetP gget stripNaN
  have h1 : (M.map fun row => row.map stripEntry).getD i [] =
      (M.getD i []).map stripEntry := by
    rcases Nat.lt_or_ge i M.length with hi | hi
    · rw [List.getD_eq_getElem _ _ (by simpa using hi),
        List.getD_eq_getElem _ _ hi, List.getElem_map]
    · rw [List.getD_eq_default _ _ (by simpa using hi),
        List.getD_eq_default _ _ hi]
      rfl
  rw [h1]
  rcases Nat.lt_or_ge j (M.getD i []).length with hj | hj
  · rw [List.getD_eq_getElem _ _ (by simpa using hj),
      List.getD_eq_getElem _ _ hj, List.getElem_map]
  · rw [List.getD_eq_default _ _ (by simpa using hj),
      List.getD_eq_default _ _ hj]
    rfl

theorem nRowsL_transposeGen {α : Type} (d : α) (M : List (List α)) :
    nRowsL (transposeGen d M) = nColsL M := by
  simp [transposeGen, nRowsL]

theorem nColsL_transposeGen {α : Type} (d : α) (M : List (List α))
    (h : 0 < nColsL M) : nColsL (transposeGen d M) = nRowsL M := by
  unfold transposeGen
  obtain ⟨m, hm⟩ : ∃ m, nColsL M = m + 1 := ⟨nColsL M - 1, by omega⟩
  rw [hm, List.range_succ_eq_map, List.map_cons]
  simp [nColsL, nRowsL]

theorem gget_transposeGen {α : Type} (d : α) (M : List (List α)) (i j : ℕ)
    (hi : i < nRowsL M) (hj : j < nColsL M) :
    gget d (transposeGen d M) j i = gget d M i j := by
  have h1 : (transposeGen d M).getD j [] =
      (List.range (nRowsL M)).map fun i => gget d M i j := by
    unfold transposeGen
    exact getD_map_range _ _ _ _ hj
  show ((transposeGen d M).getD j []).getD i d = gget d M i j
  rw [h1, getD_map_range _ _ _ _ hi]

theorem RectL_transposeGen {α : Type} (d : α) (M : List (List α)) :
    RectL (transposeGen d M) := by
  intro row hrow
  unfold transposeGen at hrow
  obtain ⟨j, hj, hrowj⟩ := List.mem_map.mp hrow
  have hjlt := List.mem_range.mp hj
  have h0 : 0 < nColsL M := by omega
  rw [← hrowj, List.length_map, List.length_range]
  rw [nColsL_transposeGen d M h0]

theorem hasNaN_iff (M : PyMat) :
    hasNaN M = true ↔ ∃ row ∈ M, ∃ e ∈ row, e = PyEntry.nan := by
  simp [hasNaN]

theorem hasNaN_iff_mget (M : PyMat) (hR : RectL M) :
    hasNaN M = true ↔
      ∃ i, i < nRowsL M ∧ ∃ j, j < nColsL M ∧ mgetP M i j = PyEntry.nan := by
  rw [hasNaN_iff]
  constructor
  · rintro ⟨row, hrow, e, he, hnan⟩
    obtain ⟨i, hi, hrowi⟩ := List.getElem_of_mem hrow
    obtain ⟨j, hj, hej⟩ := List.getElem_of_mem he
    have hjc : j < nColsL M := by
      rw [← hR row hrow]; exact hj
    refine ⟨i, hi, j, hjc, ?_⟩
    unfold mgetP gget
    rw [List.getD_eq_getElem _ _ hi, hrowi,
      List.getD_eq_getElem _ _ hj, hej, hnan]
  · rintro ⟨i, hi, j, hj, hnan⟩
    have him : M.getD i [] ∈ M := by
      rw [List.getD_eq_getElem _ _ hi]
      exact List.getElem_mem hi
    have hlen : j < (M.getD i []).length := by
      rw [hR _ him]
      exact hj
    have hjm : (M.getD i []).getD j (.val ⊤) ∈ M.getD i [] := by
      rw [List.getD_eq_getElem _ _ hlen]
      exact List.getElem_mem hlen
    exact ⟨M.getD i [], him, mgetP M i j, hjm, hnan⟩

theorem hasNaN_transposeP (M : PyMat) (hR : RectL M) :
    hasNaN (transposeP M) = hasNaN M := by
  by_cases h0 : nColsL M = 0
  · have ht : transposeP M = [] := by
      unfold transposeP transposeGen
      rw [h0]
      rfl
    have hM : hasNaN M = false := by
      rw [← Bool.not_eq_true, hasNaN_iff]
      rintro ⟨row, hrow, e, he, -⟩
      have hl := hR row hrow
      rw [h0, List.length_eq_zero] at hl
      rw [hl] at he
      exact absurd he (List.not_mem_nil e)
    rw [ht, hM]
    rfl
  · have h0' : 0 < nColsL M := Nat.pos_of_ne_zero h0
    unfold transposeP
    apply Bool.eq_iff_iff.mpr
    rw [hasNaN_iff_mget _ (RectL_transposeGen _ M), hasNaN_iff_mget _ hR]
    rw [nRowsL_transposeGen, nColsL_transposeGen _ _ h0']
    constructor
    · rintro ⟨j, hj, i, hi, hnan⟩
      refine ⟨i, hi, j, hj, ?_⟩
      rw [← hnan]
      show mgetP M i j = mgetP (transposeGen (.val ⊤) M) j i
      exact (gget_transposeGen _ M i j hi hj).symm
    · rintro ⟨i, hi, j, hj, hnan⟩
      refine ⟨j, hj, i, hi, ?_⟩
      show gget (.val ⊤) (transposeGen (.val ⊤) M) j i = PyEntry.nan
      rw [gget_transposeGen _ M i j hi hj]
      exact hnan

theorem stripNaN_transposeP (M : PyMat) :
    stripNaN (transposeP M) = transposeL (stripNaN M) := by
  unfold transposeL transposeP
  unfold transposeGen
  rw [nColsL_stripNaN, nRowsL_stripNaN]
  show stripNaN _ = _
  unfold stripNaN
  rw [List.map_map]
  apply List.map_congr_left
  intro j hj
  show ((List.range (nRowsL M)).map fun i => gget (.val ⊤) M i j).map stripEntry
      = (List.range (nRowsL M)).map fun i => gget ⊤ (M.map fun row => row.map stripEntry) i j
  rw [List.map_map]
  apply List.map_congr_left
  intro i hi
  show stripEntry (mgetP M i j) = mget (stripNaN M) i j
  exact (mget_stripNaN M i j).symm

theorem lapPick_foldl_some (M : QMat) (seqs : List (List ℕ)) :
    ∀ (b : Cost) (s : List ℕ),
      ∃ s', seqs.foldl (lapPick M) (some (b, s)) =
        some ((seqs.map (seqCost M)).foldl min b, s') := by
  induction seqs with
  | nil => intro b s; exact ⟨s, rfl⟩
  | cons t ts ih =>
    intro b s
    rw [List.foldl_cons, List.map_cons, List.foldl_cons]
    by_cases h : seqCost M t < b
    · have hs : lapPick M (some (b, s)) t = some (seqCost M t, t) := by
        show (if seqCost M t < b then _ else _) = _
        rw [if_pos h]
      rw [hs, min_eq_right h.le]
      exact ih (seqCost M t) t
    · have hs : lapPick M (some (b, s)) t = some (b, s) := by
        show (if seqCost M t < b then _ else _) = _
        rw [if_neg h]
      rw [hs, min_eq_left (le_of_not_lt h)]
      exact ih b s

theorem lapLex_none_iff (M : QMat) :
    lapLex M = none ↔ lapMinOriented M = ⊤ := by
  unfold lapLex lapMinOriented
  cases hseqs : injSeqs (nRowsL M) (List.range (nColsL M)) with
  | nil => simp
  | cons t ts =>
    rw [List.foldl_cons]
    have h1 : lapPick M none t = some (seqCost M t, t) := rfl
    rw [h1]
    obtain ⟨s', hs'⟩ := lapPick_foldl_some M ts (seqCost M t) t
    rw [hs', List.map_cons, List.foldl_cons, min_eq_right (le_top (a := seqCost M t))]
    by_cases htop : (ts.map (seqCost M)).foldl min (seqCost M t) = ⊤
    · simp [htop]
    · simp [htop]

theorem core_infeasible (M : QMat) (h : lapLex M = none) :
    constrained_lsap_costs_core M =
      .ok (List.replicate (nRowsL M) (List.replicate (nColsL M) ⊤)) := by
  unfold constrained_lsap_costs_core
  rw [h]

theorem transposeL_replicate (a b : ℕ) (x : Cost) (ha : 0 < a) :
    transposeL (List.replicate a (List.replicate b x)) =
      List.replicate b (List.replicate a x) := by
  unfold transposeL transposeGen
  have hr : nRowsL (List.replicate a (List.replicate b x)) = a := by
    simp [nRowsL]
  have hc : nColsL (List.replicate a (List.replicate b x)) = b := by
    unfold nColsL
    obtain ⟨a', rfl⟩ : ∃ a', a = a' + 1 := ⟨a - 1, by omega⟩
    simp [List.replicate_succ]
  rw [hr, hc]
  have hentry : ∀ j ∈ List.range b,
      ((List.range a).map fun i =>
        gget ⊤ (List.replicate a (List.replicate b x)) i j) =
        List.replicate a x := by
    intro j hj
    have hjb := List.mem_range.mp hj
    have h1 : ∀ i ∈ List.range a,
        gget ⊤ (List.replicate a (List.replicate b x)) i j = x := by
      intro i hi
      have hia := List.mem_range.mp hi
      have houter : (List.replicate a (List.replicate b x)).getD i [] =
          List.replicate b x := by
        rw [List.getD_eq_getElem _ _ (by simpa using hia),
          List.getElem_replicate]
      unfold gget
      rw [houter, List.getD_eq_getElem _ _ (by simpa using hjb),
        List.getElem_replicate]
    rw [List.map_congr_left h1]
    simp
  rw [List.map_congr_left hentry]
  simp

theorem costsE_base_infeasible (M : PyMat) (hR : RectL M)
    (hN : hasNaN M = false) (hI : lapMinL (stripNaN M) = ⊤) :
    constrained_lsap_costsE M =
      .ok (List.replicate (nRowsL M) (List.replicate (nColsL M) ⊤)) := by
  unfold constrained_lsap_costsE constrained_lsap_costs_checked
  by_cases hlt : nColsL M < nRowsL M
  · rw [if_pos hlt]
    have hNt : ¬ (hasNaN (transposeP M) = true) := by
      rw [hasNaN_transposeP M hR, hN]
      simp
    rw [if_neg hNt, stripNaN_transposeP]
    have hc0 : 0 < nColsL M := by
      by_contra hc
      have hc' : nColsL M = 0 := by omega
      have ht : transposeL (stripNaN M) = [] := by
        unfold transposeL transposeGen
        rw [nColsL_stripNaN, hc']
        rfl
      unfold lapMinL at hI
      rw [nRowsL_stripNaN, nColsL_stripNaN, hc'] at hI
      rw [if_neg (by omega)] at hI
      rw [ht] at hI
      exact absurd hI (by decide)
    have hIt : lapMinOriented (transposeL (stripNaN M)) = ⊤ := by
      unfold lapMinL at hI
      rw [nRowsL_stripNaN, nColsL_stripNaN] at hI
      rw [if_neg (by omega)] at hI
      exact hI
    rw [core_infeasible _ ((lapLex_none_iff _).mpr hIt)]
    have h1 : nRowsL (transposeL (stripNaN M)) = nColsL M := by
      unfold transposeL
      rw [nRowsL_transposeGen, nColsL_stripNaN]
    have h2 : nColsL (transposeL (stripNaN M)) = nRowsL M := by
      unfold transposeL
      rw [nColsL_transposeGen _ _ (by rw [nColsL_stripNaN]; exact hc0),
        nRowsL_stripNaN]
    rw [h1, h2]
    show Except.ok (transposeL (List.replicate (nColsL M)
      (List.replicate (nRowsL M) (⊤ : Cost)))) = _
    rw [transposeL_replicate _ _ _ hc0]
  · rw [if_neg hlt, if_neg (by rw [hN]; simp)]
    have hor : lapMinOriented (stripNaN M) = ⊤ := by
      unfold lapMinL at hI
      rw [if_pos (by rw [nRowsL_stripNaN, nColsL_stripNaN]; omega)] at hI
      exact hI
    rw [core_infeasible _ ((lapLex_none_iff _).mpr hor), nRowsL_stripNaN,
      nColsL_stripNaN]

theorem costsE_invalid (M : PyMat) (hR : RectL M) (hN : hasNaN M = true) :
    constrained_lsap_costsE M = .error .invalidEntries := by
  unfold constrained_lsap_costsE constrained_lsap_costs_checked
  by_cases hlt : nColsL M < nRowsL M
  · rw [if_pos hlt, if_pos (by rw [hasNaN_transposeP M hR]; exact hN)]
  · rw [if_neg hlt, if_pos hN]

theorem costE_invalid (M : PyMat) (i j : ℕ)
    (h : hasNaN (deleteRCL M i j) = true) :
    constrained_lsap_costE i j M = .error .invalidEntries := by
  unfold constrained_lsap_costE
  rw [if_pos h]

/-- C5: if the base (unconstrained) assignment problem for the input
cost matrix is infeasible, `constrained_lsap_costs` returns (without
raising) the matrix of the input's shape whose every entry is `inf`;
and the solver failure other than infeasibility (NaN entries — the
"matrix contains invalid numeric entries" `ValueError`; shape errors
cannot arise in this typed embedding) is re-raised and propagates to
the caller of both `constrained_lsap_costs` and
`constrained_lsap_cost`. -/
theorem lsap_error_handling :
    (∀ M : PyMat, RectL M → hasNaN M = false → lapMinL (stripNaN M) = ⊤ →
        constrained_lsap_costsE M =
          .ok (List.replicate (nRowsL M) (List.replicate (nColsL M) ⊤))) ∧
      (∀ M : PyMat, RectL M → hasNaN M = true →
        constrained_lsap_costsE M = .error .invalidEntries) ∧
      (∀ (M : PyMat) (i j : ℕ), hasNaN (deleteRCL M i j) = true →
        constrained_lsap_costE i j M = .error .invalidEntries) :=
  ⟨costsE_base_infeasible, costsE_invalid, costE_invalid⟩

/-- Witness for C5 at concrete inputs: the 1 × 1 matrix `[[inf]]` is
infeasible and yields `[[inf]]` without raising; a NaN matrix makes
`constrained_lsap_costs` raise; a NaN in the submatrix left after
deleting row 1 and column 1 makes `constrained_lsap_cost` raise. -/
theorem lsap_error_handling_witness :
    constrained_lsap_costsE [[PyEntry.val ⊤]] =
        .ok (List.replicate 1 (List.replicate 1 ⊤)) ∧
      constrained_lsap_costsE [[PyEntry.nan]] = .error .invalidEntries ∧
      constrained_lsap_costE 1 1
          [[PyEntry.nan, PyEntry.val 1], [PyEntry.val 2, PyEntry.val 3]] =
        .error .invalidEntries :=
  ⟨lsap_error_handling.1 _ (by decide) (by decide) (by decide),
    lsap_error_handling.2.1 _ (by decide) (by decide),
    lsap_error_handling.2.2 _ 1 1 (by decide)⟩

/-! ## `node_cover` appends submatrix-local indices (claim C2) -/

/-- C2 (code bug): on the 4-node graph `g4` with edges `0 → 1` and
`2 → 3`, `node_cover` returns `[0, 1]`, yet nodes `2` and `3` — both
outside the returned sequence — are neighbours, so the induced
subgraph on the non-cover nodes still has an edge, contradicting the
docstring ("The indices of a set of nodes in a node cover").  The loop
appends `imax`, `np.argmax` of the neighbour counts of the *compressed*
uncovered submatrix, instead of the index of the corresponding node of
the graph: in the second iteration the uncovered nodes are `{1, 2, 3}`
and the greedy choice is node `2` at compressed position `1`, so the
pass actually covers nodes `{0, 2}` (which is why the loop terminates)
while returning `[0, 1]`. -/
theorem node_cover_not_a_cover :
    node_cover g4 = [0, 1] ∧ is_nbr g4 2 3 = true ∧
      (2 : ℕ) ∉ node_cover g4 ∧ (3 : ℕ) ∉ node_cover g4 :=
  ⟨by decide, by decide, by decide, by decide⟩

/-! ## Degree vectors exclude self-edges (claim C8) -/

/-- C8: for every graph, node `v` and channel `c`, `self_edges[v][c]`
is the diagonal entry `adjacency[c][v][v]`; `in_degrees[v][c]` is the
sum of column `v` of `adjacency[c]` minus that diagonal entry; and
`out_degrees[v][c]` is the sum of row `v` minus that diagonal entry
(stated over `ℤ` so that the subtraction is the mathematical one). -/
theorem degrees_exclude_self_edges {n nch : ℕ} (g : Graph n nch)
    (v : Fin n) (c : Fin nch) :
    self_edges g v c = g.adjs c v v ∧
      (in_degrees g v c : ℤ) = (∑ u, (g.adjs c u v : ℤ)) - g.adjs c v v ∧
      (out_degrees g v c : ℤ) = (∑ u, (g.adjs c v u : ℤ)) - g.adjs c v v := by
  refine ⟨rfl, ?_, ?_⟩
  · have hle : g.adjs c v v ≤ ∑ u, g.adjs c u v :=
      Finset.single_le_sum (f := fun u => g.adjs c u v)
        (fun u _ => Nat.zero_le _) (Finset.mem_univ v)
    unfold in_degrees self_edges
    rw [Nat.cast_sub hle]
    push_cast
    rfl
  · have hle : g.adjs c v v ≤ ∑ u, g.adjs c v u :=
      Finset.single_le_sum (f := fun u => g.adjs c v u)
        (fun u _ => Nat.zero_le _) (Finset.mem_univ v)
    unfold out_degrees self_edges
    rw [Nat.cast_sub hle]
    push_cast
    rfl

/-! ## `nbr_idx_pairs` lists each adjacent pair once (claim C10) -/

theorem is_nbr_iff {n nch : ℕ} (g : Graph n nch) (i j : Fin n) :
    is_nbr g i j = true ↔ ∃ c, 0 < g.adjs c i j + g.adjs c j i := by
  unfold is_nbr sym_composite_adj composite_adj
  rw [decide_eq_true_eq, ← Finset.sum_add_distrib]
  constructor
  · intro h
    by_contra hc
    push_neg at hc
    have hz : ∑ c, (g.adjs c i j + g.adjs c j i) = 0 :=
      Finset.sum_eq_zero fun c _ => by have := hc c; omega
    omega
  · rintro ⟨c, hc⟩
    exact lt_of_lt_of_le hc
      (Finset.single_le_sum (f := fun c => g.adjs c i j + g.adjs c j i)
        (fun c _ => Nat.zero_le _) (Finset.mem_univ c))

theorem mem_nbr_idx_pairs {n nch : ℕ} (g : Graph n nch) (i j : Fin n) :
    (i, j) ∈ nbr_idx_pairs g ↔ j ≤ i ∧ is_nbr g i j = true := by
  unfold nbr_idx_pairs
  simp only [List.mem_flatMap, List.mem_map, List.mem_filter,
    List.mem_finRange, true_and, Bool.and_eq_true, decide_eq_true_eq,
    Prod.mk.injEq]
  constructor
  · rintro ⟨a, b, ⟨hba, hnbr⟩, ha, hb⟩
    subst ha
    subst hb
    exact ⟨hba, hnbr⟩
  · rintro ⟨hji, hnbr⟩
    exact ⟨i, j, ⟨hji, hnbr⟩, rfl, rfl⟩

/-- C10: `nbr_idx_pairs` lists each adjacent pair of node indices
exactly once: a pair `(i, j)` appears as a row iff `j ≤ i` and some
edge connects `i` and `j` in either direction in some channel; the list
has no duplicates; and no pair appears in both orders. -/
theorem nbr_idx_pairs_correct {n nch : ℕ} (g : Graph n nch) :
    (∀ i j : Fin n, ((i, j) ∈ nbr_idx_pairs g ↔
        j ≤ i ∧ ∃ c, 0 < g.adjs c i j + g.adjs c j i)) ∧
      (nbr_idx_pairs g).Nodup ∧
      (∀ i j : Fin n, i ≠ j → (i, j) ∈ nbr_idx_pairs g →
        (j, i) ∉ nbr_idx_pairs g) := by
  refine ⟨?_, ?_, ?_⟩
  · intro i j
    rw [mem_nbr_idx_pairs, is_nbr_iff]
  · unfold nbr_idx_pairs
    rw [List.nodup_flatMap]
    constructor
    · intro i _
      exact ((List.nodup_finRange n).filter _).map
        (fun a b hab => congrArg Prod.snd hab)
    · refine (List.nodup_finRange n).imp ?_
      intro a b hab x hxa hxb
      obtain ⟨ja, -, hja⟩ := List.mem_map.mp hxa
      obtain ⟨jb, -, hjb⟩ := List.mem_map.mp hxb
      apply hab
      rw [← hja] at hjb
      exact (congrArg Prod.fst hjb).symm
  · intro i j hne hij hji
    have h1 := (mem_nbr_idx_pairs g i j).mp hij
    have h2 := (mem_nbr_idx_pairs g j i).mp hji
    exact hne (le_antisymm h2.1 h1.1)

/-! ## Subgraph operations leave the original graph intact (claim C9) -/

theorem heapGet_append (h : Heap) (ms : List HeapMat) (r : ℕ)
    (hr : r < h.length) : heapGet (h ++ ms) r = heapGet h r := by
  unfold heapGet
  exact List.getD_append h ms [] r hr

theorem heapGet_set_ne (h : Heap) (x : ℕ) (m : HeapMat) (r : ℕ)
    (hne : x ≠ r) : heapGet (h.set x m) r = heapGet h r := by
  unfold heapGet
  rw [List.getD_eq_getElem?_getD, List.getD_eq_getElem?_getD,
    List.getElem?_set_ne hne]

theorem heapGet_foldl_set (refs : List ℕ) :
    ∀ (h : Heap) (f : Heap → ℕ → HeapMat) (r : ℕ), (∀ x ∈ refs, x ≠ r) →
      heapGet (refs.foldl (fun acc x => acc.set x (f acc x)) h) r =
        heapGet h r := by
  induction refs with
  | nil =>
    intro h f r _
    rfl
  | cons a as ih =>
    intro h f r hx
    rw [List.foldl_cons]
    rw [ih _ f r fun x hxs => hx x (List.mem_cons_of_mem a hxs)]
    exact heapGet_set_ne h a (f h a) r (hx a (List.mem_cons_self a as))

/-- C9: each of `node_subgraph`, `channel_subgraph` and
`loopless_subgraph` returns a new `Graph` and leaves the original's
heap cells untouched: every matrix reference that existed before the
call still holds exactly the entries it held before
(`loopless_subgraph` mutates only the freshly allocated copies,
`node_subgraph` only allocates, `channel_subgraph` merely aliases).
The channel and node lists are values in this model because
`Graph.__init__` copies the channel list (`list(channels)`) and the
subgraph operations only read the nodelist. -/
theorem subgraph_ops_preserve_heap :
    (∀ (h : Heap) (g : HGraph) (r : ℕ), r < h.length →
        heapGet (loopless_subgraph h g).2 r = heapGet h r) ∧
      (∀ (h : Heap) (g : HGraph) (idxs : List ℕ) (r : ℕ), r < h.length →
        heapGet (node_subgraph h g idxs).2 r = heapGet h r) ∧
      (∀ (h : Heap) (g : HGraph) (chs : List String),
        (channel_subgraph h g chs).2 = h) := by
  refine ⟨?_, ?_, ?_⟩
  · intro h g r hr
    show heapGet
      ((allocate h (g.adjRefs.map (heapGet h))).2.foldl
        (fun acc x => acc.set x (zeroDiag (heapGet acc x)))
        (allocate h (g.adjRefs.map (heapGet h))).1) r = heapGet h r
    rw [heapGet_foldl_set _ _ _ _ ?_]
    · exact heapGet_append _ _ _ hr
    · intro x hx
      obtain ⟨k, -, hk⟩ := List.mem_map.mp hx
      omega
  · intro h g idxs r hr
    exact heapGet_append _ _ _ hr
  · intro h g chs
    rfl

/-- Witness for C9 at a concrete heap holding one 2 × 2 matrix with a
self-edge: all three operations leave cell `0` intact. -/
theorem subgraph_ops_preserve_heap_witness :
    heapGet (loopless_subgraph [[[1, 2], [0, 3]]]
        ⟨[0], ["c1"], ["a", "b"]⟩).2 0 = [[1, 2], [0, 3]] ∧
      heapGet (node_subgraph [[[1, 2], [0, 3]]]
        ⟨[0], ["c1"], ["a", "b"]⟩ [1]).2 0 = [[1, 2], [0, 3]] ∧
      (channel_subgraph [[[1, 2], [0, 3]]]
        ⟨[0], ["c1"], ["a", "b"]⟩ ["c1"]).2 = [[[1, 2], [0, 3]]] :=
  ⟨(subgraph_ops_preserve_heap.1 _ _ 0 (by decide)).trans (by decide),
    (subgraph_ops_preserve_heap.2.1 _ _ [1] 0 (by decide)).trans (by decide),
    subgraph_ops_preserve_heap.2.2 _ _ ["c1"]⟩

/-! ## `Graph` construction and the channel count check (claim C3) -/

/-- C3 (counterexample to the original claim): a legacy-order call —
three node names in the `adjs` position, two channels, and a nodelist
holding two adjacency matrices — has `len(adjs) != len(channels)` yet
constructs a `Graph` successfully, because `Graph.__init__` reinterprets
the arguments in the old order instead of raising. -/
theorem graphInit_mismatch_succeeds :
    ([PyVal.name "a", PyVal.name "b", PyVal.name "c"].length ≠
        (["c1", "c2"] : List String).length) ∧
      graphInit [PyVal.name "a", PyVal.name "b", PyVal.name "c"]
          (some ["c1", "c2"])
          (some [PyVal.mat [[0, 0], [0, 0]], PyVal.mat [[0, 0], [0, 0]]]) =
        .ok { adjs := [PyVal.mat [[0, 0], [0, 0]], PyVal.mat [[0, 0], [0, 0]]],
              channels := ["c1", "c2"] } :=
  ⟨by decide, rfl⟩

/-- C3 (amended): when channel names are given, construction fails
whenever the number of adjacency matrices differs from the number of
channel names *and* the legacy fallback does not apply, i.e. the
nodelist argument is absent (then the second length check evaluates
`len(None)`, a `TypeError`) or its length also differs from the channel
count (then the `Exception("Unable to match adjs to channels")` — the
spec's ConstructionError — is raised). -/
theorem graphInit_mismatch_fails (adjs : List PyVal) (chs : List String)
    (nodelist : Option (List PyVal)) (h : adjs.length ≠ chs.length)
    (hleg : ∀ nl, nodelist = some nl → nl.length ≠ chs.length) :
    ∃ e, graphInit adjs (some chs) nodelist = .error e := by
  show ∃ e,
    (if adjs.length ≠ chs.length then
      match nodelist with
      | none => Except.error InitErr.typeErrorNone
      | some nl =>
        if nl.length ≠ chs.length then Except.error InitErr.unableToMatch
        else finishInit nl (some chs)
    else finishInit adjs (some chs)) = Except.error e
  rw [if_pos h]
  cases nodelist with
  | none => exact ⟨.typeErrorNone, rfl⟩
  | some nl =>
    show ∃ e,
      (if nl.length ≠ chs.length then Except.error InitErr.unableToMatch
        else finishInit nl (some chs)) = Except.error e
    rw [if_pos (hleg nl rfl)]
    exact ⟨.unableToMatch, rfl⟩

/-- Witness for the amended C3 theorem: one matrix, two channel names,
no nodelist. -/
theorem graphInit_mismatch_fails_witness :
    ∃ e, graphInit [PyVal.mat [[0]]] (some ["c1", "c2"]) none = .error e :=
  graphInit_mismatch_fails _ _ _ (by decide) fun nl hnl => by cases hnl

/-! ## `count_alldiffs` on disjoint candidate sets (claim C7) -/

theorem shareValue_eq_false (a b : List ℤ) :
    shareValue a b = false ↔ ∀ v ∈ a, v ∉ b := by
  unfold shareValue
  simp

theorem insertComp_fresh (comps : List (List (List ℤ))) (cand : List ℤ)
    (h : ∀ comp ∈ comps, ∀ cs ∈ comp, shareValue cs cand = false) :
    insertComp comps cand = [cand] :: comps := by
  show (cand :: (comps.partition fun comp =>
      comp.any fun cs => shareValue cs cand).1.flatten) ::
    (comps.partition fun comp => comp.any fun cs => shareValue cs cand).2 =
    [cand] :: comps
  have hpred : ∀ comp ∈ comps,
      (comp.any fun cs => shareValue cs cand) = false := by
    intro comp hcomp
    rw [List.any_eq_false]
    intro cs hcs
    simp [h comp hcomp cs hcs]
  rw [List.partition_eq_filter_filter]
  have h1 : (comps.filter fun comp =>
      comp.any fun cs => shareValue cs cand) = [] := by
    rw [List.filter_eq_nil_iff]
    intro comp hcomp
    simp [hpred comp hcomp]
  have h2 : (comps.filter
      (not ∘ fun comp => comp.any fun cs => shareValue cs cand)) = comps := by
    rw [List.filter_eq_self]
    intro comp hcomp
    simp [Function.comp, hpred comp hcomp]
  rw [h1, h2]
  rfl

theorem components_disjoint_aux (cands : List (List ℤ)) :
    ∀ acc : List (List (List ℤ)),
      cands.Pairwise (fun a b => ∀ x ∈ a, x ∉ b) →
      (∀ c ∈ cands, ∀ comp ∈ acc, ∀ cs ∈ comp, shareValue cs c = false) →
      cands.foldl insertComp acc = (cands.map fun c => [c]).reverse ++ acc := by
  induction cands with
  | nil =>
    intro acc _ _
    simp
  | cons c cs ih =>
    intro acc hpw hacc
    have hfresh : ∀ b ∈ cs, ∀ comp ∈ ([c] :: acc), ∀ cselem ∈ comp,
        shareValue cselem b = false := by
      intro b hb comp hcomp cselem hcs
      rcases List.mem_cons.mp hcomp with hcomp1 | hcomp2
      · rw [hcomp1] at hcs
        have hcc : cselem = c := by simpa using hcs
        rw [hcc, shareValue_eq_false]
        exact fun v hv => (List.pairwise_cons.mp hpw).1 b hb v hv
      · exact hacc b (List.mem_cons_of_mem c hb) comp hcomp2 cselem hcs
    rw [List.foldl_cons,
      insertComp_fresh acc c (hacc c (List.mem_cons_self c cs)),
      ih ([c] :: acc) (List.pairwise_cons.mp hpw).2 hfresh,
      List.map_cons, List.reverse_cons, List.append_assoc]
    rfl

theorem branchCount_singleton (c : List ℤ) : branchCount 1 [c] = c.length := by
  cases c with
  | nil => rfl
  | cons v vs =>
    have hidx : argminLenIdx [v :: vs] = 0 := by
      unfold argminLenIdx
      simp
    show branchCount 1 [v :: vs] = (v :: vs).length
    rw [branchCount]
    rw [if_neg (by simp), if_neg (by simp)]
    rw [hidx]
    show ((v :: vs).map fun _ => branchCount 0 []).sum = (v :: vs).length
    rw [show branchCount 0 [] = 1 from rfl]
    simp
    omega

/-- C7 (modelled from the spec, §4.6): for every family of items whose
candidate sets are pairwise disjoint, `count_alldiffs` returns the
product of the candidate-set sizes — with disjoint sets every item is
its own connected component and a single-item component contributes
exactly its number of candidates. -/
theorem count_alldiffs_disjoint (d : List (String × List ℤ))
    (hdisj : (d.map Prod.snd).Pairwise fun a b => ∀ x ∈ a, x ∉ b) :
    count_alldiffs d = (d.map fun p => p.2.length).prod := by
  unfold count_alldiffs components
  rw [components_disjoint_aux (d.map Prod.snd) [] hdisj
    (by intro c hc comp hcomp; cases hcomp)]
  rw [List.append_nil, List.map_reverse, List.prod_reverse, List.map_map]
  have hmap : (d.map Prod.snd).map
      ((fun comp => branchCount comp.length comp) ∘ fun c => [c]) =
      (d.map Prod.snd).map (fun c => c.length) := by
    apply List.map_congr_left
    intro c _
    show branchCount 1 [c] = c.length
    exact branchCount_singleton c
  rw [hmap, List.map_map]
  rfl

/-- Witness for C7: the example from the spec and the tests,
`{a: [1,2,3,4], b: [5,6,7]}`, yields `4 * 3 = 12`. -/
theorem count_alldiffs_disjoint_witness :
    count_alldiffs [("a", [1, 2, 3, 4]), ("b", [5, 6, 7])] = 12 := by
  rw [count_alldiffs_disjoint [("a", [1, 2, 3, 4]), ("b", [5, 6, 7])]
    (by decide)]
  decide

/-- Witness for C10 on the concrete graph `g4` (edge `0 → 1`): the pair
`(1, 0)` is listed, and since `1 ≠ 0` the reversed pair `(0, 1)` is
not. -/
theorem nbr_idx_pairs_correct_witness :
    ((1 : Fin 4), (0 : Fin 4)) ∈ nbr_idx_pairs g4 ∧
      ((0 : Fin 4), (1 : Fin 4)) ∉ nbr_idx_pairs g4 :=
  ⟨((nbr_idx_pairs_correct g4).1 1 0).mpr ⟨by decide, 0, by decide⟩,
    (nbr_idx_pairs_correct g4).2.2 1 0 (by decide)
      (((nbr_idx_pairs_correct g4).1 1 0).mpr ⟨by decide, 0, by decide⟩)⟩
